import Mathlib

/-
Verification of the spaced-repetition core of the Public-Policy flashcards
application (src/main.py): the SM-2 scheduling engine `schedule_next`,
the progress persistence (`load_progress` / `save_progress`), the
tag → week → due selection pipeline, the known-set mutations, and the
answer-similarity scorer.

Python machine values are embedded as follows: Python `int` as `Int`,
Python `float` as `Rat` (the arithmetic in `schedule_next` is exact on
the represented values), Python `str` as `String`, a `dict` keyed by
strings as an association list `List (String × _)` whose lookup takes
the first matching key, a `set` of strings as a duplicate-free
`List String`.  The wall clock (`datetime.now()`) is an input: functions
that stamp `next_due` receive the already-formatted timestamp string.
-/

set_option autoImplicit false

namespace FlashMain

/-- One value of the `scheduler` dict of src/main.py: the per-term
scheduling state `{"interval": .., "repetitions": .., "ef": ..,
"next_due": ..}` (lines 82 and 101). -/
structure SchedEntry where
  interval : Int
  repetitions : Int
  ef : Rat
  next_due : String
deriving DecidableEq, Repr

/-- The in-memory progress of src/main.py: the `known_terms` set
(line 73) and the `scheduler` dict (line 74), i.e. the content of
`progress_data`. -/
structure Progress where
  known : List String
  sched : List (String × SchedEntry)
deriving DecidableEq, Repr

/-- One record of the term catalog (`terms.json`): the fields the
modelled core inspects (`term`, `definition`, `tags`, `week`); the
remaining fields (hint, author, image_url, example_link, related_terms)
are presentational and never read by the scheduling/filtering code. -/
structure TermRecord where
  term : String
  definition : String
  tags : List String
  week : Int
deriving DecidableEq, Repr

/-- Python `dict.get(k)` on a string-keyed dict: first matching key. -/
def slookup {α : Type} (k : String) : List (String × α) → Option α
  | [] => none
  | (k', v) :: rest => if k = k' then some v else slookup k rest

/-- Python `int()` applied to a float: truncation toward zero. -/
def pyInt (q : Rat) : Int :=
  if 0 ≤ q then ⌊q⌋ else ⌈q⌉

/-- The default entry synthesized by line 82 of src/main.py for a term
with no scheduler state: `{"interval": 0, "repetitions": 0, "ef": 2.5}`.
That dict has no `next_due` key; the field is never read before being
overwritten, so it is modelled as `""`. -/
def defaultEntry : SchedEntry :=
  { interval := 0, repetitions := 0, ef := 2.5, next_due := "" }

/-- Line 82 of src/main.py: `scheduler.get(term, {...default...})`. -/
def getEntry (p : Progress) (t : String) : SchedEntry :=
  (slookup t p.sched).getD defaultEntry

/-- Lines 87–101 of src/main.py: the new scheduler entry computed by
`schedule_next` from the prior entry and the quality rating.  `nd` is
the `next_due` timestamp `(datetime.now() + timedelta(days=interval)).isoformat()`
computed at line 100 (the clock is external, so the stamp is an input). -/
def updateEntry (e : SchedEntry) (quality : Int) (nd : String) : SchedEntry :=
  if quality < 3 then
    { e with repetitions := 0, interval := 1, next_due := nd }
  else
    let ef := max 1.3 (e.ef + (0.1 - ((5 : Rat) - (quality : Rat)) * (0.08 + ((5 : Rat) - (quality : Rat)) * 0.02)))
    let repetitions := e.repetitions + 1
    let interval : Int :=
      if repetitions = 1 then 1
      else if repetitions = 2 then 6
      else pyInt ((e.interval : Rat) * ef)
    { interval := interval, repetitions := repetitions, ef := ef, next_due := nd }

/-- Lines 77–103 of src/main.py: `schedule_next(term, quality)` looks up
the prior entry (or the default), computes the new one, and stores it
under `term` in the scheduler dict (`scheduler[term] = {...}`). -/
def schedule_next (p : Progress) (t : String) (quality : Int) (nd : String) : Progress :=
  { p with sched := (t, updateEntry (getEntry p t) quality nd) :: p.sched }

/-- Lines 388–391 of src/main.py: "Mark as Known" adds the term to the
`known_terms` set. -/
def markKnown (p : Progress) (t : String) : Progress :=
  { p with known := if p.known.contains t then p.known else t :: p.known }

/-- Lines 393–396 of src/main.py: "Mark as Unknown" discards the term
from the `known_terms` set. -/
def markUnknown (p : Progress) (t : String) : Progress :=
  { p with known := p.known.filter (fun x => x ≠ t) }

/-- A finite sequence of `schedule_next` calls, each a triple of term,
quality, and the `next_due` stamp of that call. -/
def applyCalls (p : Progress) : List (String × Int × String) → Progress
  | [] => p
  | (t, q, nd) :: rest => applyCalls (schedule_next p t q nd) rest

/-- Every entry stored in the scheduler dict has ease factor at least 1.3. -/
def efInv (m : List (String × SchedEntry)) : Prop :=
  ∀ t e, slookup t m = some e → (1.3 : Rat) ≤ e.ef

/-- Python string `<=` on code-point lists: lexicographic comparison. -/
def charsLe : List Char → List Char → Bool
  | [], _ => true
  | _ :: _, [] => false
  | x :: xs, y :: ys =>
    if x < y then true
    else if x = y then charsLe xs ys
    else false

/-- Python `str <= str`: lexicographic comparison of the code points.
Line 236 of src/main.py compares ISO timestamps this way. -/
def pyStrLe (a b : String) : Bool :=
  charsLe a.toList b.toList

/-- Lines 189–192 of src/main.py: the tag stage.  When the selected tag
list is non-empty, keep the records sharing at least one tag with it
(`set(e.get("tags", [])) & set(selected_tags)` is truthy); an empty
selection keeps everything. -/
def tagFiltered (catalog : List TermRecord) (selTags : List String) : List TermRecord :=
  if selTags.isEmpty then catalog
  else catalog.filter (fun e => e.tags.any (fun t => selTags.contains t))

/-- Lines 223–227 of src/main.py: the week stage.  `none` models the
"All" choice (no restriction); `some w` keeps records whose week equals
`w`. -/
def weekFiltered (l : List TermRecord) (selWeek : Option Int) : List TermRecord :=
  match selWeek with
  | none => l
  | some w => l.filter (fun e => decide (e.week = w))

/-- Lines 231–239 of src/main.py: the due stage.  When `dueOnly` is set,
keep records with `scheduler.get(term, {}).get("next_due", "") <= now`;
an absent entry contributes `""`. -/
def dueFiltered (l : List TermRecord) (sched : List (String × SchedEntry))
    (dueOnly : Bool) (now : String) : List TermRecord :=
  if dueOnly then
    l.filter (fun e => pyStrLe (((slookup e.term sched).map SchedEntry.next_due).getD "") now)
  else l

/-- Lines 188–239 of src/main.py: the full selection pipeline, the three
stages composed in the fixed order tag → week → due, producing the
`filtered_terms` list. -/
def filtered_terms (catalog : List TermRecord) (sched : List (String × SchedEntry))
    (selTags : List String) (selWeek : Option Int) (dueOnly : Bool) (now : String) :
    List TermRecord :=
  dueFiltered (weekFiltered (tagFiltered catalog selTags) selWeek) sched dueOnly now

/-- Python `str.lower()` followed by `str.strip()`, applied at lines
447–448 of src/main.py to both answer and reference definition before
scoring: lower-case every character, then drop leading and trailing
whitespace. -/
def normText (s : String) : List Char :=
  (((s.toList.map Char.toLower).dropWhile Char.isWhitespace).reverse.dropWhile
    Char.isWhitespace).reverse

/-- Length of the longest common prefix of two character lists. -/
def prefLen : List Char → List Char → Nat
  | x :: xs, y :: ys => if x = y then prefLen xs ys + 1 else 0
  | _, _ => 0

/-- All matching-block candidates for two character lists: for each pair
of start offsets, the length of the common run starting there. -/
def blockCands (a b : List Char) : List (Nat × Nat × Nat) :=
  (List.range a.length).flatMap
    (fun i => (List.range b.length).map (fun j => (i, j, prefLen (a.drop i) (b.drop j))))

/-- Keep the candidate with the strictly larger run, preferring the
earlier one on ties. -/
def pickBest (acc c : Nat × Nat × Nat) : Nat × Nat × Nat :=
  if acc.2.2 < c.2.2 then c else acc

/-- A longest matching block of two character lists (start offset in
each list and its length); `(0, 0, 0)` when there is none. -/
def bestBlock (a b : List Char) : Nat × Nat × Nat :=
  (blockCands a b).foldl pickBest (0, 0, 0)

/-- Total number of matched characters: repeatedly take a longest
matching block and recurse on the pieces to its left and right.  The
fuel argument bounds the recursion depth; `a.length + b.length` strictly
decreases at each recursive call, so the initial fuel used by
`matchTotal` is never exhausted. -/
def matchTotalFuel : Nat → List Char → List Char → Nat
  | 0, _, _ => 0
  | fuel + 1, a, b =>
    let ijk := bestBlock a b
    if ijk.2.2 = 0 then 0
    else
      matchTotalFuel fuel (a.take ijk.1) (b.take ijk.2.1) + ijk.2.2 +
        matchTotalFuel fuel (a.drop (ijk.1 + ijk.2.2)) (b.drop (ijk.2.1 + ijk.2.2))

/-- Total matched characters between two character lists. -/
def matchTotal (a b : List Char) : Nat :=
  matchTotalFuel (a.length + b.length) a b

/-- Modelled from the spec: `difflib.SequenceMatcher(None, a, b).ratio()`
(line 449 of src/main.py) is Python standard-library code not present in
this repository.  Section 4.2 of the spec requires "a general
sequence-similarity measure (longest-matching-blocks based, analogous to
an edit-similarity ratio)" valued in [0, 1]; we model it as twice the
total size of the recursively-chosen longest matching blocks divided by
the combined length, with two empty sequences scoring 1. -/
def ratioOf (a b : List Char) : Rat :=
  if a.length + b.length = 0 then 1
  else 2 * (matchTotal a b : Rat) / ((a.length : Rat) + (b.length : Rat))

/-- Lines 446–450 of src/main.py: `Score(candidate, reference)` — both
inputs are lower-cased and stripped, then the similarity ratio of the
normalized texts is returned. -/
def score (candidate reference : String) : Rat :=
  ratioOf (normText candidate) (normText reference)

/-- A JSON value as written and read by `json.dump` / `json.load`:
Python ints and floats are kept apart, floats being modelled as exact
rationals (their values round-trip through the serialization). -/
inductive Json where
  | str : String → Json
  | int : Int → Json
  | num : Rat → Json
  | arr : List Json → Json
  | obj : List (String × Json) → Json

/-- Serialization of one scheduler entry (the dict built at line 101 of
src/main.py). -/
def encodeEntry (e : SchedEntry) : Json :=
  .obj [("interval", .int e.interval), ("repetitions", .int e.repetitions),
        ("ef", .num e.ef), ("next_due", .str e.next_due)]

/-- Parse one scheduler entry back from its JSON object. -/
def decodeEntry : Json → Option SchedEntry
  | .obj fields =>
    match slookup "interval" fields, slookup "repetitions" fields,
        slookup "ef" fields, slookup "next_due" fields with
    | some (.int i), some (.int r), some (.num f), some (.str nd) =>
      some { interval := i, repetitions := r, ef := f, next_due := nd }
    | _, _, _, _ => none
  | _ => none

/-- Parse a JSON array of strings. -/
def decodeStrList : List Json → Option (List String)
  | [] => some []
  | .str s :: rest => (decodeStrList rest).map (s :: ·)
  | _ :: _ => none

/-- Parse the scheduler object: every value must be a scheduler entry. -/
def decodeSchedList : List (String × Json) → Option (List (String × SchedEntry))
  | [] => some []
  | (k, j) :: rest =>
    match decodeEntry j with
    | some e => (decodeSchedList rest).map ((k, e) :: ·)
    | none => none

/-- Serialization of the whole progress record, the shape written by
`save_progress` (lines 68–70 of src/main.py): an object with the
`known_terms` array and the `scheduler` object. -/
def encodeProgress (p : Progress) : Json :=
  .obj [("known_terms", .arr (p.known.map .str)),
        ("scheduler", .obj (p.sched.map (fun kv => (kv.1, encodeEntry kv.2))))]

/-- Parse a progress record from its JSON value; `none` models content
that does not have the persisted shape. -/
def decodeProgress (j : Json) : Option Progress :=
  match j with
  | .obj fields =>
    match slookup "known_terms" fields, slookup "scheduler" fields with
    | some (.arr ks), some (.obj ss) =>
      match decodeStrList ks, decodeSchedList ss with
      | some known, some sched => some { known := known, sched := sched }
      | _, _ => none
    | _, _ => none
  | _ => none

/-- Lines 61–66 of src/main.py: `load_progress()`.  The store is the
content of `progress.json` if the file exists (`none` when absent); an
absent file yields the empty snapshot, a present one is parsed. -/
def load_progress (store : Option Json) : Option Progress :=
  match store with
  | none => some { known := [], sched := [] }
  | some j => decodeProgress j

/-- Lines 68–70 of src/main.py: `save_progress(data)` — the store now
holds the serialized record. -/
def save_progress (p : Progress) : Option Json :=
  some (encodeProgress p)

theorem slookup_cons_self {α : Type} (k : String) (v : α) (m : List (String × α)) :
    slookup k ((k, v) :: m) = some v := by
  simp [slookup]

theorem slookup_cons_ne {α : Type} (k k' : String) (v : α) (m : List (String × α))
    (h : k ≠ k') : slookup k ((k', v) :: m) = slookup k m := by
  simp [slookup, h]

theorem pyInt_eq_floor (q : Rat) (h : 0 ≤ q) : pyInt q = ⌊q⌋ :=
  if_pos h

theorem getEntry_ef_ge (p : Progress) (t : String) (h : efInv p.sched) :
    (1.3 : Rat) ≤ (getEntry p t).ef := by
  unfold getEntry
  cases hl : slookup t p.sched with
  | none => simp [defaultEntry]; norm_num
  | some e => simpa using h t e hl

theorem updateEntry_ef_ge (e : SchedEntry) (q : Int) (nd : String)
    (h : (1.3 : Rat) ≤ e.ef) : (1.3 : Rat) ≤ (updateEntry e q nd).ef := by
  unfold updateEntry
  split
  · simpa using h
  · simpa using le_max_left _ _

theorem schedule_next_efInv (p : Progress) (t : String) (q : Int) (nd : String)
    (h : efInv p.sched) : efInv (schedule_next p t q nd).sched := by
  intro t' e' he'
  simp only [schedule_next] at he'
  rw [slookup] at he'
  by_cases ht : t' = t
  · rw [if_pos ht] at he'
    cases he'
    exact updateEntry_ef_ge _ _ _ (getEntry_ef_ge p t h)
  · rw [if_neg ht] at he'
    exact h t' e' he'

/-- C1: for every term and every prior scheduling state (including the
synthesized default for an absent entry), `schedule_next` with
quality < 3 stores a state with repetitions 0, interval 1, and the
pre-call ease factor. -/
theorem C1_lapse_resets (p : Progress) (t : String) (q : Int) (nd : String) (h : q < 3) :
    slookup t (schedule_next p t q nd).sched =
      some { interval := 1, repetitions := 0, ef := (getEntry p t).ef, next_due := nd } := by
  simp [schedule_next, slookup, updateEntry, h]

theorem C1_lapse_resets_witness :
    slookup "x" (schedule_next ⟨[], []⟩ "x" 0 "d").sched =
      some { interval := 1, repetitions := 0, ef := 2.5, next_due := "d" } := by
  have h := C1_lapse_resets ⟨[], []⟩ "x" 0 "d" (by decide)
  simpa [getEntry, slookup, defaultEntry] using h

/-- C2: for every term, every prior state, and every quality with
3 ≤ quality ≤ 5, `schedule_next` stores the ease factor
max(1.3, ef + (0.1 − (5 − q)·(0.08 + (5 − q)·0.02))), increments the
repetition count, and sets the interval to 1 when the new count is 1,
to 6 when it is 2, and to ⌊old interval · new ease⌋ otherwise (the
interval of a scheduling state being nonnegative). -/
theorem C2_success_update (p : Progress) (t : String) (q : Int) (nd : String)
    (h3 : 3 ≤ q) (h5 : q ≤ 5) (hi : 0 ≤ (getEntry p t).interval) :
    slookup t (schedule_next p t q nd).sched =
      some { interval :=
               if (getEntry p t).repetitions + 1 = 1 then 1
               else if (getEntry p t).repetitions + 1 = 2 then 6
               else ⌊((getEntry p t).interval : Rat) *
                      max 1.3 ((getEntry p t).ef +
                        (0.1 - ((5 : Rat) - (q : Rat)) * (0.08 + ((5 : Rat) - (q : Rat)) * 0.02)))⌋,
             repetitions := (getEntry p t).repetitions + 1,
             ef := max 1.3 ((getEntry p t).ef +
                     (0.1 - ((5 : Rat) - (q : Rat)) * (0.08 + ((5 : Rat) - (q : Rat)) * 0.02))),
             next_due := nd } := by
  have hnl : ¬q < 3 := not_lt.mpr h3
  have hef : (0 : Rat) ≤ max 1.3 ((getEntry p t).ef +
      (0.1 - ((5 : Rat) - (q : Rat)) * (0.08 + ((5 : Rat) - (q : Rat)) * 0.02))) :=
    le_trans (by norm_num) (le_max_left _ _)
  have hprod : (0 : Rat) ≤ ((getEntry p t).interval : Rat) *
      max 1.3 ((getEntry p t).ef +
        (0.1 - ((5 : Rat) - (q : Rat)) * (0.08 + ((5 : Rat) - (q : Rat)) * 0.02))) :=
    mul_nonneg (by exact_mod_cast hi) hef
  simp [schedule_next, slookup, updateEntry, hnl, pyInt_eq_floor _ hprod]

theorem C2_success_update_witness :
    slookup "x" (schedule_next
        ⟨[], [("x", { interval := 6, repetitions := 2, ef := 2.5, next_due := "" })]⟩
        "x" 5 "d").sched =
      some { interval := 15, repetitions := 3, ef := 2.6, next_due := "d" } := by
  have h := C2_success_update
    ⟨[], [("x", { interval := 6, repetitions := 2, ef := 2.5, next_due := "" })]⟩
    "x" 5 "d" (by decide) (by decide) (by simp [getEntry, slookup])
  rw [h]
  norm_num [getEntry, slookup, max_def]

/-- C3: starting from any state in which every stored ease factor is at
least 1.3 (the default 2.5 for an absent entry included), after any
finite sequence of `schedule_next` calls with arbitrary terms and
arbitrary integer qualities, every stored ease factor is still at least
1.3. -/
theorem C3_ef_lower_bound (calls : List (String × Int × String)) (p : Progress)
    (h : efInv p.sched) : efInv (applyCalls p calls).sched := by
  induction calls generalizing p with
  | nil => exact h
  | cons c rest ih =>
    obtain ⟨t, q, nd⟩ := c
    exact ih _ (schedule_next_efInv p t q nd h)

theorem C3_ef_lower_bound_witness :
    efInv (applyCalls ⟨[], []⟩ [("x", 5, "a"), ("x", 0, "b"), ("y", 9, "c")]).sched :=
  C3_ef_lower_bound _ _ (by intro t e h; simp [slookup] at h)

/-- C4 counterexample: quality 7 lies outside [0, 5], yet the call
`schedule_next "X" 7` on the empty state is not rejected — it mutates
the scheduler mapping (the entry for "X" appears). -/
theorem C4_counterexample :
    slookup "X" (schedule_next ⟨[], []⟩ "X" 7 "t").sched ≠
      slookup "X" (Progress.mk [] []).sched := by
  simp [schedule_next, slookup]

/-- C4 (amended): `schedule_next` performs no quality validation: a
quality outside [0, 5] is processed by the ordinary algorithm (quality
below 3 as a lapse, quality above 5 as a success) and the scheduler
entry for the term is written. -/
theorem C4_no_validation (p : Progress) (t : String) (q : Int) (nd : String)
    (h : q < 0 ∨ 5 < q) :
    slookup t (schedule_next p t q nd).sched = some (updateEntry (getEntry p t) q nd) := by
  simp [schedule_next, slookup]

theorem C4_no_validation_witness :
    slookup "x" (schedule_next ⟨[], []⟩ "x" 7 "d").sched =
      some (updateEntry (getEntry ⟨[], []⟩ "x") 7 "d") :=
  C4_no_validation _ _ _ _ (Or.inr (by decide))

/-- C10: marking a term known or unknown leaves the scheduler mapping
unchanged, and `schedule_next` leaves the known set unchanged and the
scheduler entry of every other term unchanged. -/
theorem C10_frame_conditions (p : Progress) (t t' : String) (q : Int) (nd : String) :
    (markKnown p t).sched = p.sched ∧ (markUnknown p t).sched = p.sched ∧
    (schedule_next p t q nd).known = p.known ∧
    (t' ≠ t → slookup t' (schedule_next p t q nd).sched = slookup t' p.sched) := by
  refine ⟨rfl, rfl, rfl, fun h => ?_⟩
  simp [schedule_next, slookup, h]

theorem C10_frame_conditions_witness :
    (markKnown ⟨["k"], [("b", { interval := 1, repetitions := 1, ef := 2.5, next_due := "z" })]⟩ "a").sched =
      (Progress.mk ["k"] [("b", { interval := 1, repetitions := 1, ef := 2.5, next_due := "z" })]).sched ∧
    (markUnknown ⟨["k"], [("b", { interval := 1, repetitions := 1, ef := 2.5, next_due := "z" })]⟩ "a").sched =
      (Progress.mk ["k"] [("b", { interval := 1, repetitions := 1, ef := 2.5, next_due := "z" })]).sched ∧
    (schedule_next ⟨["k"], [("b", { interval := 1, repetitions := 1, ef := 2.5, next_due := "z" })]⟩ "a" 5 "d").known =
      (Progress.mk ["k"] [("b", { interval := 1, repetitions := 1, ef := 2.5, next_due := "z" })]).known ∧
    slookup "b" (schedule_next ⟨["k"], [("b", { interval := 1, repetitions := 1, ef := 2.5, next_due := "z" })]⟩ "a" 5 "d").sched =
      slookup "b" (Progress.mk ["k"] [("b", { interval := 1, repetitions := 1, ef := 2.5, next_due := "z" })]).sched := by
  obtain ⟨h1, h2, h3, h4⟩ := C10_frame_conditions
    ⟨["k"], [("b", { interval := 1, repetitions := 1, ef := 2.5, next_due := "z" })]⟩ "a" "b" 5 "d"
  exact ⟨h1, h2, h3, h4 (by decide)⟩

/-- C5: a catalog term with no entry in the scheduler mapping is always
kept by the due filter (`dueOnly = true`), whatever the current time. -/
theorem C5_absent_is_due (sched : List (String × SchedEntry)) (l : List TermRecord)
    (now : String) (e : TermRecord) (habs : slookup e.term sched = none) (hmem : e ∈ l) :
    e ∈ dueFiltered l sched true now := by
  simp only [dueFiltered, if_pos, List.mem_filter]
  exact ⟨hmem, by simp [habs, pyStrLe, charsLe]⟩

theorem C5_absent_is_due_witness :
    (⟨"a", "def", [], 1⟩ : TermRecord) ∈
      dueFiltered [⟨"a", "def", [], 1⟩]
        [("b", { interval := 1, repetitions := 1, ef := 2.5, next_due := "2099-01-01T00:00:00" })]
        true "2020-01-01T00:00:00" :=
  C5_absent_is_due _ _ _ _ (by simp [slookup]) (by simp)

/-- C6: with `dueOnly = false`, the selection pipeline keeps exactly the
catalog terms that pass the tag restriction (some tag in the selected
set; an empty selection restricts nothing) and the week restriction
(equality with the selected week; "All", modelled as `none`, restricts
nothing) — a pure membership characterization, independent of catalog
order. -/
theorem C6_filter_composition (catalog : List TermRecord) (sched : List (String × SchedEntry))
    (selTags : List String) (selWeek : Option Int) (now : String) (e : TermRecord) :
    e ∈ filtered_terms catalog sched selTags selWeek false now ↔
      e ∈ catalog ∧ (selTags ≠ [] → ∃ t, t ∈ e.tags ∧ t ∈ selTags) ∧
        (∀ w, selWeek = some w → e.week = w) := by
  rcases selWeek with _ | w <;> rcases selTags with _ | ⟨t0, ts⟩ <;>
    simp [filtered_terms, dueFiltered, weekFiltered, tagFiltered, List.mem_filter,
      List.any_eq_true, List.mem_cons, and_assoc] <;> aesop

theorem C6_filter_composition_witness :
    (⟨"a", "d1", ["econ"], 3⟩ : TermRecord) ∈
      filtered_terms [⟨"a", "d1", ["econ"], 3⟩, ⟨"b", "d2", ["law"], 3⟩] []
        ["econ"] (some 3) false "now" := by
  refine (C6_filter_composition _ _ _ _ _ _).mpr
    ⟨by simp, fun _ => ⟨"econ", by simp, by simp⟩, fun w h => ?_⟩
  cases h
  rfl

theorem decodeEntry_encodeEntry (e : SchedEntry) : decodeEntry (encodeEntry e) = some e := by
  simp [decodeEntry, encodeEntry, slookup]

theorem decodeStrList_map (l : List String) : decodeStrList (l.map .str) = some l := by
  induction l with
  | nil => rfl
  | cons x xs ih => simp [decodeStrList, ih]

theorem decodeSchedList_map (l : List (String × SchedEntry)) :
    decodeSchedList (l.map (fun kv => (kv.1, encodeEntry kv.2))) = some l := by
  induction l with
  | nil => rfl
  | cons kv rest ih => simp [decodeSchedList, decodeEntry_encodeEntry, ih]

theorem decodeProgress_encodeProgress (p : Progress) :
    decodeProgress (encodeProgress p) = some p := by
  simp [decodeProgress, encodeProgress, slookup, decodeStrList_map, decodeSchedList_map]

/-- C8: loading with no persisted record yields the empty snapshot (no
error); loading a present record yields the stored snapshot. -/
theorem C8_load_snapshot :
    load_progress none = some { known := [], sched := [] } ∧
    ∀ p : Progress, load_progress (some (encodeProgress p)) = some p :=
  ⟨rfl, fun p => decodeProgress_encodeProgress p⟩

/-- C9: for every snapshot (known-terms list plus scheduler mapping of
interval/repetitions/ef/next_due entries), saving and then loading
returns a snapshot equal in content to the one saved. -/
theorem C9_round_trip (p : Progress) : load_progress (save_progress p) = some p :=
  decodeProgress_encodeProgress p

theorem prefLen_self (l : List Char) : prefLen l l = l.length := by
  induction l with
  | nil => rfl
  | cons x xs ih => simp [prefLen, ih]

theorem prefLen_le_left (a b : List Char) : prefLen a b ≤ a.length := by
  induction a generalizing b with
  | nil => simp [prefLen]
  | cons x xs ih =>
    cases b with
    | nil => simp [prefLen]
    | cons y ys =>
      by_cases h : x = y
      · simpa [prefLen, h] using ih ys
      · simp [prefLen, h]

theorem prefLen_le_right (a b : List Char) : prefLen a b ≤ b.length := by
  induction a generalizing b with
  | nil => simp [prefLen]
  | cons x xs ih =>
    cases b with
    | nil => simp [prefLen]
    | cons y ys =>
      by_cases h : x = y
      · simpa [prefLen, h] using ih ys
      · simp [prefLen, h]

theorem le_foldl_pickBest (l : List (Nat × Nat × Nat)) (acc : Nat × Nat × Nat) :
    acc.2.2 ≤ (l.foldl pickBest acc).2.2 := by
  induction l generalizing acc with
  | nil => exact le_refl _
  | cons hd tl ih =>
    refine le_trans ?_ (ih (pickBest acc hd))
    unfold pickBest
    split
    · exact le_of_lt (by assumption)
    · exact le_refl _

theorem foldl_pickBest_ge (l : List (Nat × Nat × Nat)) (acc c : Nat × Nat × Nat)
    (hc : c ∈ l) : c.2.2 ≤ (l.foldl pickBest acc).2.2 := by
  induction l generalizing acc with
  | nil => cases hc
  | cons hd tl ih =>
    rcases List.mem_cons.mp hc with h | h
    · subst h
      refine le_trans ?_ (le_foldl_pickBest tl (pickBest acc c))
      unfold pickBest
      split
      · exact le_refl _
      · exact le_of_not_lt (by assumption)
    · exact ih (pickBest acc hd) h

theorem foldl_pickBest_mem (l : List (Nat × Nat × Nat)) (acc : Nat × Nat × Nat) :
    l.foldl pickBest acc = acc ∨ l.foldl pickBest acc ∈ l := by
  induction l generalizing acc with
  | nil => exact Or.inl rfl
  | cons hd tl ih =>
    rcases ih (pickBest acc hd) with h | h
    · rw [List.foldl_cons, h]
      unfold pickBest
      split
      · exact Or.inr (List.mem_cons_self _ _)
      · exact Or.inl rfl
    · exact Or.inr (List.mem_cons_of_mem _ h)

theorem blockCands_mem (a b : List Char) (i j k : Nat)
    (h : (i, j, k) ∈ blockCands a b) :
    i < a.length ∧ j < b.length ∧ k = prefLen (a.drop i) (b.drop j) := by
  unfold blockCands at h
  rcases List.mem_flatMap.mp h with ⟨i', hi', hj⟩
  rcases List.mem_map.mp hj with ⟨j', hj', heq⟩
  obtain ⟨rfl, rfl, rfl⟩ : i' = i ∧ j' = j ∧ prefLen (a.drop i') (b.drop j') = k := by
    cases heq
    exact ⟨rfl, rfl, rfl⟩
  exact ⟨List.mem_range.mp hi', List.mem_range.mp hj', rfl⟩

theorem self_block_mem (a : List Char) (ha : a ≠ []) :
    (0, 0, prefLen a a) ∈ blockCands a a := by
  unfold blockCands
  refine List.mem_flatMap.mpr ⟨0, ?_, List.mem_map.mpr ⟨0, ?_, by simp⟩⟩ <;>
    exact List.mem_range.mpr (List.length_pos.mpr ha)

theorem bestBlock_self (a : List Char) (ha : a ≠ []) :
    bestBlock a a = (0, 0, a.length) := by
  have hge : a.length ≤ (bestBlock a a).2.2 := by
    have h := foldl_pickBest_ge (blockCands a a) (0, 0, 0) _ (self_block_mem a ha)
    simpa [bestBlock, prefLen_self] using h
  have hpos : 0 < a.length := List.length_pos.mpr ha
  rcases foldl_pickBest_mem (blockCands a a) (0, 0, 0) with h | h
  · exfalso
    rw [bestBlock] at hge
    rw [h] at hge
    have h0 : a.length = 0 := Nat.le_zero.mp hge
    omega
  · obtain ⟨h1, h2, h3⟩ := blockCands_mem a a (bestBlock a a).1 (bestBlock a a).2.1
      (bestBlock a a).2.2 (by simpa [bestBlock] using h)
    have hb1 : prefLen (a.drop (bestBlock a a).1) (a.drop (bestBlock a a).2.1) ≤
        a.length - (bestBlock a a).1 := by
      simpa using prefLen_le_left (a.drop (bestBlock a a).1) (a.drop (bestBlock a a).2.1)
    have hb2 : prefLen (a.drop (bestBlock a a).1) (a.drop (bestBlock a a).2.1) ≤
        a.length - (bestBlock a a).2.1 := by
      simpa using prefLen_le_right (a.drop (bestBlock a a).1) (a.drop (bestBlock a a).2.1)
    rw [h3] at hge
    have hi0 : (bestBlock a a).1 = 0 := by omega
    have hj0 : (bestBlock a a).2.1 = 0 := by omega
    have hk : (bestBlock a a).2.2 = a.length := by
      rw [hi0, hj0] at h3
      simpa [prefLen_self] using h3
    calc bestBlock a a = ((bestBlock a a).1, (bestBlock a a).2.1, (bestBlock a a).2.2) := rfl
      _ = (0, 0, a.length) := by rw [hi0, hj0, hk]

theorem matchTotalFuel_nil (fuel : Nat) : matchTotalFuel fuel [] [] = 0 := by
  cases fuel with
  | zero => rfl
  | succ n => rfl

theorem matchTotal_self (a : List Char) : matchTotal a a = a.length := by
  by_cases ha : a = []
  · subst ha; rfl
  · have hpos : 0 < a.length := List.length_pos.mpr ha
    obtain ⟨n, hn⟩ : ∃ n, a.length + a.length = n + 1 :=
      ⟨a.length + a.length - 1, by omega⟩
    unfold matchTotal
    rw [hn, matchTotalFuel, bestBlock_self a ha]
    simp only
    rw [if_neg (by omega : ¬a.length = 0)]
    simp [matchTotalFuel_nil]

theorem ratioOf_self (a : List Char) : ratioOf a a = 1 := by
  unfold ratioOf
  split
  · rfl
  · rename_i h
    rw [matchTotal_self]
    have hL : (a.length : Rat) ≠ 0 := by
      have : a.length ≠ 0 := by omega
      exact_mod_cast this
    field_simp
    ring

/-- C7: the similarity score of any non-empty string with itself is 1,
and the score is insensitive to case and to leading/trailing whitespace
of its inputs — both are lower-cased and stripped before the ratio is
computed, so score " Foo " "foo" equals score "foo" "foo". -/
theorem C7_score_normalized (x : String) (hx : x ≠ "") :
    score x x = 1 ∧ score " Foo " "foo" = score "foo" "foo" :=
  ⟨ratioOf_self _, by rfl⟩

theorem C7_score_normalized_witness :
    score "ab" "ab" = 1 ∧ score " Foo " "foo" = score "foo" "foo" :=
  C7_score_normalized "ab" (by decide)

end FlashMain
